import Mathlib

/-!
Verification development for the pore-C fragment-mapping core.

The definitions below embed the interval-index part of `pore_c/model.py`
(`FragmentMap`) and the binning helpers of `pore_c/tools/map_to_bins.py`.
Pure functions of the Python source become Lean functions on lists; the
insertion-ordered Python `dict` becomes an association list; text files are
modelled at the level of the parsed lines they contain.  Components whose
source module is absent from the repository snapshot (fragment assignment in
`pore_c.tools.map_to_frags`, walk flattening in `pore_c.tools.poreC_flatten`)
and the external `bedtools` intersection are modelled from the specification;
each such definition says so in its doc comment.
-/

namespace PoreC

/-- A genomic interval `[start, stop)` on a chromosome carrying a fragment id.
Mirrors the 4-tuples `(chrom, start, end, id)` built by
`FragmentMap.endpoints_to_intervals` in `pore_c/model.py` (the Python code
renders the id as a decimal string; the embedding keeps it as a natural
number). -/
structure Interval where
  chrom : String
  start : Nat
  stop : Nat
  id : Nat
deriving DecidableEq, Repr

/-- The `0`-prefixing step of `endpoints_to_intervals` (`model.py` lines
45-46): prepend `0` when the first position is not `0`. -/
def prefixZero (positions : List Nat) : List Nat :=
  if positions.head? = some 0 then positions else 0 :: positions

/-- `FragmentMap.endpoints_to_intervals` (`model.py` lines 43-50): prepend `0`
when the first position is not `0`, then pair consecutive positions into
half-open intervals, numbering them consecutively from `id_offset`.  The
Python code performs no further validation of the positions. -/
def endpoints_to_intervals (chrom : String) (positions : List Nat)
    (id_offset : Nat) : List Interval :=
  let ps := prefixZero positions
  (ps.zip ps.tail).enum.map fun p => ⟨chrom, p.2.1, p.2.2, p.1 + id_offset⟩

/-- `FragmentMap.from_dict` (`model.py` lines 65-76), restricted to the
interval list it builds (the `chrom_lengths` side table plays no part in the
claims): iterate over the insertion-ordered map, extending the interval list
and advancing the running id offset by the length of the endpoint list. -/
def from_dict (d : List (String × List Nat)) : List Interval :=
  (d.foldl
    (fun acc ce => (acc.1 ++ endpoints_to_intervals ce.1 ce.2 acc.2,
                    acc.2 + ce.2.length))
    (([] : List Interval), 0)).1

/-- `FragmentMap.from_HiCRef` (`model.py` lines 84-98) at the level of the
parsed lines `(chrom, endpoints)`: the accumulation loop is the same as in
`from_dict`. -/
def from_HiCRef (lines : List (String × List Nat)) : List Interval :=
  (lines.foldl
    (fun acc ce => (acc.1 ++ endpoints_to_intervals ce.1 ce.2 acc.2,
                    acc.2 + ce.2.length))
    (([] : List Interval), 0)).1

/-- Key order of the `defaultdict` populated by `save_to_HiCRef`
(`model.py` lines 57-63): chromosomes in order of first appearance in the
interval list. -/
def chromKeys (ivs : List Interval) : List String :=
  ivs.foldl (fun acc iv => if iv.chrom ∈ acc then acc else acc ++ [iv.chrom]) []

/-- `FragmentMap.save_to_HiCRef` (`model.py` lines 57-63) at the level of the
lines it writes: for each chromosome, in first-appearance order, the list of
interval stop positions in interval order. -/
def save_to_HiCRef (ivs : List Interval) : List (String × List Nat) :=
  (chromKeys ivs).map fun c =>
    (c, (ivs.filter fun iv => decide (iv.chrom = c)).map (·.stop))

/-- The record type of one `bedtools intersect -wo` output row, mirroring the
`BedToolsOverlap` dataclass of `model.py` lines 14-33. -/
structure BedToolsOverlap where
  query_chrom : String
  query_start : Nat
  query_end : Nat
  query_id : String
  frag_chrom : String
  frag_start : Nat
  frag_end : Nat
  frag_id : Nat
  overlap : Nat
deriving DecidableEq, Repr

/-- Modelled from the spec: the external `bedtools intersect -sorted -wo` call
made by `FragmentMap.iter_overlaps` (`pybedtools` is an external dependency,
not part of the repository).  For the single query interval it reports each
index interval on the same chromosome whose half-open intersection with the
query is nonempty, in index order, with the intersection length
`min(end, frag_end) - max(start, frag_start)`. -/
def intersect_wo : String × Nat × Nat × String → List Interval →
    List BedToolsOverlap
  | (qc, qs, qe, qid), ivs =>
    (ivs.filter fun iv =>
        decide (iv.chrom = qc ∧ max qs iv.start < min qe iv.stop)).map fun iv =>
      ⟨qc, qs, qe, qid, iv.chrom, iv.start, iv.stop, iv.id,
        min qe iv.stop - max qs iv.start⟩

/-- `FragmentMap.iter_overlaps` (`model.py` lines 130-135): run the
intersection, then skip every overlap whose length is `<= min_overlap`. -/
def iter_overlaps (ivs : List Interval) (query : String × Nat × Nat × String)
    (min_overlap : Nat) : List BedToolsOverlap :=
  (intersect_wo query ivs).filter fun o => decide (min_overlap < o.overlap)

/-- Structural-recursion restatement of the accumulation loop shared by
`from_dict`, `from_HiCRef` and `from_digest_iter`, with the running id offset
made explicit.  `buildIntervals_eq_from_dict` proves it equal to the foldl
form taken directly from the source. -/
def buildIntervals : List (String × List Nat) → Nat → List Interval
  | [], _ => []
  | ce :: rest, off =>
    endpoints_to_intervals ce.1 ce.2 off ++ buildIntervals rest (off + ce.2.length)

/-- The index built by the test fixture of `tests/test_map_to_frags.py`
restricted to `chr1`, as used in the spec's concrete query examples. -/
def fmChr1 : List Interval := from_dict [(("chr1" : String), [10, 20, 30, 100])]

theorem foldl_buildIntervals (d : List (String × List Nat)) :
    ∀ (acc : List Interval) (off : Nat),
      (d.foldl
        (fun acc ce => (acc.1 ++ endpoints_to_intervals ce.1 ce.2 acc.2,
                        acc.2 + ce.2.length))
        (acc, off)) =
      (acc ++ buildIntervals d off,
        off + (d.map fun ce => ce.2.length).sum) := by
  induction d with
  | nil => intro acc off; simp [buildIntervals]
  | cons ce rest ih =>
    intro acc off
    simp only [List.foldl_cons, ih, buildIntervals, List.map_cons, List.sum_cons]
    rw [Prod.mk.injEq]
    exact ⟨by simp [List.append_assoc], by omega⟩

theorem from_dict_eq_buildIntervals (d : List (String × List Nat)) :
    from_dict d = buildIntervals d 0 := by
  simp [from_dict, foldl_buildIntervals]

theorem from_HiCRef_eq_from_dict (lines : List (String × List Nat)) :
    from_HiCRef lines = from_dict lines := rfl

theorem endpoints_to_intervals_get? (chrom : String) (positions : List Nat)
    (id_offset i a b : Nat)
    (ha : (prefixZero positions).get? i = some a)
    (hb : (prefixZero positions).get? (i + 1) = some b) :
    (endpoints_to_intervals chrom positions id_offset).get? i =
      some ⟨chrom, a, b, i + id_offset⟩ := by
  have htail : (prefixZero positions).tail.get? i = some b := by
    rw [List.get?_eq_getElem?, List.getElem?_tail, ← List.get?_eq_getElem?]
    exact hb
  have hzip : ((prefixZero positions).zip (prefixZero positions).tail).get? i =
      some (a, b) := by
    rw [List.get?_zip_eq_some]
    exact ⟨ha, htail⟩
  rw [List.get?_eq_getElem?] at hzip
  rw [endpoints_to_intervals]
  simp [List.get?_map, List.get?_enum, hzip]

/-- C1 (amended): `endpoints_to_intervals` (hence `from_dict`) performs no
validation of the endpoint list.  Whenever two consecutive positions of the
`0`-prefixed list are non-increasing, construction still succeeds and the
index contains the corresponding inverted (empty-or-backwards) interval
`[a, b)` with `b <= a`; no `MalformedEndpoints` error exists in the code. -/
theorem C1_no_validation (chrom : String) (positions : List Nat)
    (id_offset i a b : Nat)
    (ha : (prefixZero positions).get? i = some a)
    (hb : (prefixZero positions).get? (i + 1) = some b) (hba : b ≤ a) :
    ∃ iv ∈ endpoints_to_intervals chrom positions id_offset,
      iv.start = a ∧ iv.stop = b ∧ iv.stop ≤ iv.start :=
  ⟨⟨chrom, a, b, i + id_offset⟩,
    List.get?_mem (endpoints_to_intervals_get? chrom positions id_offset i a b ha hb),
    rfl, rfl, hba⟩

/-- C1 witness: on the non-increasing endpoint list `[20, 10]` the
construction emits the inverted interval `[20, 10)`. -/
theorem C1_no_validation_witness :
    ∃ iv ∈ endpoints_to_intervals ("chr1") [20, 10] 0,
      iv.start = 20 ∧ iv.stop = 10 ∧ iv.stop ≤ iv.start :=
  C1_no_validation ("chr1") [20, 10] 0 1 20 10 (by decide) (by decide) (by decide)

/-- C1 counterexample: the `0`-prefixed endpoint list `[0, 20, 10]` is not
strictly increasing, yet `from_dict` raises no error and aborts nothing: it
returns a two-interval index (the claimed `MalformedEndpoints` error path
does not exist in `model.py`). -/
theorem C1_counterexample :
    ¬ List.Chain' (· < ·) (prefixZero [20, 10]) ∧
    from_dict [(("chr1" : String), [20, 10])] =
      [⟨("chr1"), 0, 20, 0⟩, ⟨("chr1"), 20, 10, 1⟩] ∧
    from_dict [(("chr1" : String), [20, 10])] ≠ [] := by
  have e : from_dict [(("chr1" : String), [20, 10])] =
      [⟨("chr1"), 0, 20, 0⟩, ⟨("chr1"), 20, 10, 1⟩] := rfl
  refine ⟨?_, e, fun h => List.cons_ne_nil _ _ (e.symm.trans h)⟩
  have hp : prefixZero [20, 10] = [0, 20, 10] := rfl
  rw [hp]
  simp [List.chain'_cons, List.chain'_singleton]

/-- The query predicate on index intervals that `iter_overlaps` effectively
filters by: same chromosome, nonempty half-open intersection, and
intersection length above `min_overlap`. -/
def overlapKeep (qc : String) (qs qe mo : Nat) (iv : Interval) : Bool :=
  decide (mo < min qe iv.stop - max qs iv.start) &&
  decide (iv.chrom = qc ∧ max qs iv.start < min qe iv.stop)

theorem iter_overlaps_eq_map_filter (ivs : List Interval) (qc qid : String)
    (qs qe mo : Nat) :
    iter_overlaps ivs (qc, qs, qe, qid) mo =
      (ivs.filter (overlapKeep qc qs qe mo)).map fun iv =>
        ⟨qc, qs, qe, qid, iv.chrom, iv.start, iv.stop, iv.id,
          min qe iv.stop - max qs iv.start⟩ := by
  rw [iter_overlaps, intersect_wo, List.filter_map, List.filter_filter]
  rfl

/-- C2: for every per-chromosome start-sorted index, `iter_overlaps` with
`min_overlap = 0` yields overlaps in ascending fragment-start order, every
yielded overlap has positive length, and a zero-length query (`start = end`)
yields nothing. -/
theorem C2_query_properties (ivs : List Interval) (qc qid : String)
    (qs qe : Nat)
    (hs : ivs.Pairwise fun a b => a.chrom = b.chrom → a.start ≤ b.start) :
    ((iter_overlaps ivs (qc, qs, qe, qid) 0).map (·.frag_start)).Pairwise
        (· ≤ ·) ∧
    (∀ o ∈ iter_overlaps ivs (qc, qs, qe, qid) 0, 0 < o.overlap) ∧
    (qs = qe → iter_overlaps ivs (qc, qs, qe, qid) 0 = []) := by
  rw [iter_overlaps_eq_map_filter]
  refine ⟨?_, ?_, ?_⟩
  · rw [List.map_map]
    have hsub : (ivs.filter (overlapKeep qc qs qe 0)).Pairwise
        fun a b => a.chrom = b.chrom → a.start ≤ b.start :=
      List.Pairwise.sublist (List.filter_sublist ivs) hs
    rw [List.pairwise_map]
    refine hsub.imp_of_mem ?_
    intro a b ha hb hab
    have hca : a.chrom = qc := by
      have := (List.mem_filter.mp ha).2
      simp only [overlapKeep, Bool.and_eq_true, decide_eq_true_iff] at this
      exact this.2.1
    have hcb : b.chrom = qc := by
      have := (List.mem_filter.mp hb).2
      simp only [overlapKeep, Bool.and_eq_true, decide_eq_true_iff] at this
      exact this.2.1
    exact hab (hca.trans hcb.symm)
  · intro o ho
    obtain ⟨iv, hiv, rfl⟩ := List.mem_map.mp ho
    have := (List.mem_filter.mp hiv).2
    simp only [overlapKeep, Bool.and_eq_true, decide_eq_true_iff] at this
    exact this.1
  · intro hqe
    subst hqe
    rw [List.filter_eq_nil_iff.mpr, List.map_nil]
    intro iv _
    simp only [overlapKeep, Bool.and_eq_true, decide_eq_true_iff]
    intro hk
    have h1 : max qs iv.start < min qs iv.stop := hk.2.2
    have h2 : min qs iv.stop ≤ qs := min_le_left _ _
    have h3 : qs ≤ max qs iv.start := le_max_left _ _
    omega

/-- C2 witness: the properties hold concretely on the `chr1` test index for
the query `(chr1, 15, 25)`. -/
theorem C2_query_properties_witness :
    ((iter_overlaps fmChr1 (("chr1"), 15, 25, ("q")) 0).map
        (·.frag_start)).Pairwise (· ≤ ·) ∧
    (∀ o ∈ iter_overlaps fmChr1 (("chr1"), 15, 25, ("q")) 0, 0 < o.overlap) ∧
    (15 = 25 → iter_overlaps fmChr1 (("chr1"), 15, 25, ("q")) 0 = []) :=
  C2_query_properties fmChr1 ("chr1") ("q") 15 25 (by decide)

theorem endpoints_to_intervals_map_id (chrom : String) (positions : List Nat)
    (id_offset : Nat) :
    (endpoints_to_intervals chrom positions id_offset).map (·.id) =
      (List.range
          ((prefixZero positions).zip (prefixZero positions).tail).length).map
        (· + id_offset) := by
  rw [endpoints_to_intervals, List.map_map,
    ← List.enum_map_fst ((prefixZero positions).zip (prefixZero positions).tail),
    List.map_map]
  rfl

theorem prefixZero_length_le (positions : List Nat) :
    (prefixZero positions).length ≤ positions.length + 1 := by
  rw [prefixZero]
  split
  · exact Nat.le_succ _
  · simp

theorem endpoints_to_intervals_id_bounds (chrom : String) (positions : List Nat)
    (id_offset : Nat) :
    ∀ iv ∈ endpoints_to_intervals chrom positions id_offset,
      id_offset ≤ iv.id ∧ iv.id < id_offset + positions.length := by
  intro iv hiv
  have hmem : iv.id ∈ (endpoints_to_intervals chrom positions id_offset).map
      (·.id) := List.mem_map_of_mem _ hiv
  rw [endpoints_to_intervals_map_id] at hmem
  obtain ⟨x, hx, hxe⟩ := List.mem_map.mp hmem
  rw [List.mem_range] at hx
  have hzl : ((prefixZero positions).zip (prefixZero positions).tail).length ≤
      positions.length := by
    have h1 := prefixZero_length_le positions
    rw [List.length_zip, List.length_tail]
    omega
  omega

theorem buildIntervals_id_lb (d : List (String × List Nat)) :
    ∀ off, ∀ iv ∈ buildIntervals d off, off ≤ iv.id := by
  induction d with
  | nil => intro off iv hiv; simp [buildIntervals] at hiv
  | cons ce rest ih =>
    intro off iv hiv
    rw [buildIntervals, List.mem_append] at hiv
    rcases hiv with h | h
    · exact (endpoints_to_intervals_id_bounds ce.1 ce.2 off iv h).1
    · have := ih (off + ce.2.length) iv h
      omega

theorem buildIntervals_id_pairwise (d : List (String × List Nat)) :
    ∀ off, ((buildIntervals d off).map (·.id)).Pairwise (· < ·) := by
  induction d with
  | nil => intro off; simp [buildIntervals]
  | cons ce rest ih =>
    intro off
    rw [buildIntervals, List.map_append, List.pairwise_append]
    refine ⟨?_, ih _, ?_⟩
    · rw [endpoints_to_intervals_map_id, List.pairwise_map]
      exact (List.pairwise_lt_range _).imp (by omega)
    · intro a ha b hb
      obtain ⟨iva, hiva, rfl⟩ := List.mem_map.mp ha
      obtain ⟨ivb, hivb, rfl⟩ := List.mem_map.mp hb
      have h1 := (endpoints_to_intervals_id_bounds ce.1 ce.2 off iva hiva).2
      have h2 := buildIntervals_id_lb rest (off + ce.2.length) ivb hivb
      omega

theorem buildIntervals_append (d₁ d₂ : List (String × List Nat)) :
    ∀ off, buildIntervals (d₁ ++ d₂) off =
      buildIntervals d₁ off ++
        buildIntervals d₂ (off + (d₁.map fun ce => ce.2.length).sum) := by
  induction d₁ with
  | nil => intro off; simp [buildIntervals]
  | cons ce rest ih =>
    intro off
    rw [List.cons_append, buildIntervals, buildIntervals, ih,
      List.append_assoc, List.map_cons, List.sum_cons]
    rw [Nat.add_assoc]

/-- C4 (amended): fragment ids are globally unique and strictly increasing
across chromosomes in insertion order, and each chromosome's ids start at the
total number of ENDPOINTS (the `len(endpoints)` offset of the source) of all
previously added chromosomes — which equals the prior fragment count only
when no prior endpoint list begins with `0`. -/
theorem C4_id_assignment (d : List (String × List Nat)) (c : String)
    (es : List Nat) :
    ((from_dict d).map (·.id)).Pairwise (· < ·) ∧
    from_dict (d ++ [(c, es)]) =
      from_dict d ++
        endpoints_to_intervals c es ((d.map fun ce => ce.2.length).sum) := by
  constructor
  · rw [from_dict_eq_buildIntervals]
    exact buildIntervals_id_pairwise d 0
  · rw [from_dict_eq_buildIntervals, from_dict_eq_buildIntervals,
      buildIntervals_append]
    rw [buildIntervals, buildIntervals, List.append_nil, Nat.zero_add]

/-- C4 counterexample: with `{c1: [0, 10], c2: [5]}` chromosome `c1` yields a
single fragment but the offset advances by the endpoint-list length 2, so
`c2`'s first fragment id is 2, not the prior fragment count 1. -/
theorem C4_counterexample :
    ((from_dict [(("c1" : String), [0, 10]), (("c2" : String), [5])]).filter
        fun iv => decide (iv.chrom = ("c2" : String))).map (·.id) = [2] ∧
    ((from_dict [(("c1" : String), [0, 10]), (("c2" : String), [5])]).filter
        fun iv => decide (iv.chrom = ("c1" : String))).length = 1 ∧
    (2 : Nat) ≠ 1 := by decide

theorem endpoints_to_intervals_chrom (c : String) (es : List Nat) (off : Nat) :
    ∀ iv ∈ endpoints_to_intervals c es off, iv.chrom = c := by
  intro iv hiv
  rw [endpoints_to_intervals] at hiv
  obtain ⟨p, _, rfl⟩ := List.mem_map.mp hiv
  rfl

theorem endpoints_to_intervals_map_stop (c : String) (es : List Nat)
    (off : Nat) :
    (endpoints_to_intervals c es off).map (·.stop) = (prefixZero es).tail := by
  rw [endpoints_to_intervals, List.map_map]
  have h1 : ((fun iv : Interval => iv.stop) ∘
      fun p : Nat × Nat × Nat => (⟨c, p.2.1, p.2.2, p.1 + off⟩ : Interval)) =
      Prod.snd ∘ Prod.snd := rfl
  rw [h1, ← List.map_map, List.enum_map_snd]
  refine List.map_snd_zip _ _ ?_
  rw [List.length_tail]
  omega

theorem prefixZero_tail_of_head (es : List Nat) (h0 : es.head? ≠ some 0) :
    (prefixZero es).tail = es := by
  rw [prefixZero, if_neg h0]
  rfl

theorem endpoints_to_intervals_ne_nil (c : String) (es : List Nat) (off : Nat)
    (hne : es ≠ []) (h0 : es.head? ≠ some 0) :
    endpoints_to_intervals c es off ≠ [] := by
  intro h
  have hm : (endpoints_to_intervals c es off).map (·.stop) = [] := by
    rw [h]
    rfl
  rw [endpoints_to_intervals_map_stop, prefixZero_tail_of_head es h0] at hm
  exact hne hm

theorem buildIntervals_chrom_mem (d : List (String × List Nat)) :
    ∀ off, ∀ iv ∈ buildIntervals d off, iv.chrom ∈ d.map (·.1) := by
  induction d with
  | nil => intro off iv hiv; simp [buildIntervals] at hiv
  | cons ce rest ih =>
    intro off iv hiv
    rw [buildIntervals, List.mem_append] at hiv
    rw [List.map_cons, List.mem_cons]
    rcases hiv with h | h
    · exact Or.inl (endpoints_to_intervals_chrom ce.1 ce.2 off iv h)
    · exact Or.inr (ih _ iv h)

theorem chromKeys_loop_mem (c : String) :
    ∀ (chunk : List Interval), (∀ iv ∈ chunk, iv.chrom = c) →
    ∀ acc, c ∈ acc →
      chunk.foldl
        (fun acc iv => if iv.chrom ∈ acc then acc else acc ++ [iv.chrom]) acc =
        acc := by
  intro chunk
  induction chunk with
  | nil => intro _ acc _; rfl
  | cons iv t ih =>
    intro hc acc hacc
    rw [List.foldl_cons]
    have hivc : iv.chrom = c := hc iv (List.mem_cons_self _ _)
    rw [hivc, if_pos hacc]
    exact ih (fun x hx => hc x (List.mem_cons_of_mem _ hx)) acc hacc

theorem chromKeys_loop_const (c : String) (chunk : List Interval)
    (hc : ∀ iv ∈ chunk, iv.chrom = c) (hne : chunk ≠ []) (acc : List String)
    (hnacc : c ∉ acc) :
    chunk.foldl
      (fun acc iv => if iv.chrom ∈ acc then acc else acc ++ [iv.chrom]) acc =
      acc ++ [c] := by
  cases chunk with
  | nil => exact absurd rfl hne
  | cons iv t =>
    rw [List.foldl_cons]
    have hivc : iv.chrom = c := hc iv (List.mem_cons_self _ _)
    rw [hivc, if_neg hnacc]
    exact chromKeys_loop_mem c t (fun x hx => hc x (List.mem_cons_of_mem _ hx))
      (acc ++ [c]) (List.mem_append_right _ (List.mem_singleton_self _))

theorem chromKeys_buildIntervals (d : List (String × List Nat)) :
    ∀ off (acc : List String),
      (∀ k ∈ d.map (·.1), k ∉ acc) → (d.map (·.1)).Nodup →
      (∀ ce ∈ d, ce.2 ≠ [] ∧ ce.2.head? ≠ some 0) →
      (buildIntervals d off).foldl
        (fun acc iv => if iv.chrom ∈ acc then acc else acc ++ [iv.chrom]) acc =
        acc ++ d.map (·.1) := by
  induction d with
  | nil => intro off acc _ _ _; simp [buildIntervals]
  | cons ce rest ih =>
    intro off acc hacc hnd hok
    rw [buildIntervals, List.foldl_append]
    have hce := hok ce (List.mem_cons_self _ _)
    have hc1 : ce.1 ∉ acc := hacc ce.1 (by rw [List.map_cons]; exact List.mem_cons_self _ _)
    rw [chromKeys_loop_const ce.1 _ (endpoints_to_intervals_chrom ce.1 ce.2 off)
      (endpoints_to_intervals_ne_nil ce.1 ce.2 off hce.1 hce.2) acc hc1]
    rw [List.map_cons] at hnd
    have hnd' := List.nodup_cons.mp hnd
    rw [ih (off + ce.2.length) (acc ++ [ce.1]) ?_ hnd'.2
      (fun x hx => hok x (List.mem_cons_of_mem _ hx))]
    · simp
    · intro k hk
      rw [List.mem_append, List.mem_singleton]
      push_neg
      refine ⟨hacc k (by rw [List.map_cons]; exact List.mem_cons_of_mem _ hk), ?_⟩
      intro he
      exact hnd'.1 (he ▸ hk)

theorem save_buildIntervals (d : List (String × List Nat)) :
    ∀ off, (d.map (·.1)).Nodup →
      (∀ ce ∈ d, ce.2 ≠ [] ∧ ce.2.head? ≠ some 0) →
      save_to_HiCRef (buildIntervals d off) = d := by
  induction d with
  | nil => intro off _ _; rfl
  | cons ce rest ih =>
    intro off hnd hok
    have hce := hok ce (List.mem_cons_self _ _)
    rw [List.map_cons] at hnd
    have hnd' := List.nodup_cons.mp hnd
    have hkeys : chromKeys (buildIntervals (ce :: rest) off) =
        (ce :: rest).map (·.1) := by
      rw [chromKeys, chromKeys_buildIntervals (ce :: rest) off []
        (fun k _ => List.not_mem_nil k) (by rw [List.map_cons] ; exact hnd)
        hok]
      rfl
    have hsplit : buildIntervals (ce :: rest) off =
        endpoints_to_intervals ce.1 ce.2 off ++
          buildIntervals rest (off + ce.2.length) := rfl
    have hchunk_all : ∀ iv ∈ endpoints_to_intervals ce.1 ce.2 off,
        iv.chrom = ce.1 := endpoints_to_intervals_chrom ce.1 ce.2 off
    have hrest_ne : ∀ iv ∈ buildIntervals rest (off + ce.2.length),
        iv.chrom ≠ ce.1 := by
      intro iv hiv he
      exact hnd'.1 (he ▸ buildIntervals_chrom_mem rest _ iv hiv)
    have hhead : ((buildIntervals (ce :: rest) off).filter
        fun iv => decide (iv.chrom = ce.1)).map (·.stop) = ce.2 := by
      rw [hsplit, List.filter_append]
      have h1 : (endpoints_to_intervals ce.1 ce.2 off).filter
          (fun iv => decide (iv.chrom = ce.1)) =
          endpoints_to_intervals ce.1 ce.2 off :=
        List.filter_eq_self.mpr fun iv hiv =>
          decide_eq_true (hchunk_all iv hiv)
      have h2 : (buildIntervals rest (off + ce.2.length)).filter
          (fun iv => decide (iv.chrom = ce.1)) = [] :=
        List.filter_eq_nil_iff.mpr fun iv hiv => by
          simp only [decide_eq_true_iff]
          exact hrest_ne iv hiv
      rw [h1, h2, List.append_nil, endpoints_to_intervals_map_stop,
        prefixZero_tail_of_head ce.2 hce.2]
    have htailkeys : ∀ c ∈ rest.map (·.1),
        (buildIntervals (ce :: rest) off).filter
            (fun iv => decide (iv.chrom = c)) =
          (buildIntervals rest (off + ce.2.length)).filter
            (fun iv => decide (iv.chrom = c)) := by
      intro c hc
      have hcne : c ≠ ce.1 := by
        intro he
        exact hnd'.1 (he ▸ hc)
      rw [hsplit, List.filter_append]
      have h1 : (endpoints_to_intervals ce.1 ce.2 off).filter
          (fun iv => decide (iv.chrom = c)) = [] :=
        List.filter_eq_nil_iff.mpr fun iv hiv => by
          simp only [decide_eq_true_iff]
          rw [hchunk_all iv hiv]
          exact fun he => hcne he.symm
      rw [h1, List.nil_append]
    have hrest : (rest.map (·.1)).map (fun c =>
        (c, ((buildIntervals (ce :: rest) off).filter
          (fun iv => decide (iv.chrom = c))).map (·.stop))) = rest := by
      rw [List.map_congr_left (fun c hc => by rw [htailkeys c hc])]
      have hform : save_to_HiCRef (buildIntervals rest (off + ce.2.length)) =
          rest := ih (off + ce.2.length) hnd'.2
        (fun x hx => hok x (List.mem_cons_of_mem _ hx))
      rw [save_to_HiCRef] at hform
      have hkeys' : chromKeys (buildIntervals rest (off + ce.2.length)) =
          rest.map (·.1) := by
        rw [chromKeys, chromKeys_buildIntervals rest (off + ce.2.length) []
          (fun k _ => List.not_mem_nil k) hnd'.2
          (fun x hx => hok x (List.mem_cons_of_mem _ hx))]
        rfl
      rw [hkeys'] at hform
      exact hform
    rw [save_to_HiCRef, hkeys]
    simp only [List.map_cons]
    rw [hhead, hrest, Prod.mk.eta]

/-- C3 (amended): for every chromosome → endpoints map with distinct
chromosome names whose endpoint lists are nonempty and do not begin with `0`,
building the index, serializing to HiCRef lines, and re-parsing reproduces
the interval list (hence the interval set) exactly. -/
theorem C3_roundtrip (d : List (String × List Nat))
    (hnd : (d.map (·.1)).Nodup)
    (hok : ∀ ce ∈ d, ce.2 ≠ [] ∧ ce.2.head? ≠ some 0) :
    from_HiCRef (save_to_HiCRef (from_dict d)) = from_dict d := by
  have h1 : save_to_HiCRef (from_dict d) = d := by
    rw [from_dict_eq_buildIntervals]
    exact save_buildIntervals d 0 hnd hok
  rw [h1, from_HiCRef_eq_from_dict]

/-- C3 witness: the round-trip holds concretely on the two-chromosome test
fixture of `tests/test_map_to_frags.py`. -/
theorem C3_roundtrip_witness :
    from_HiCRef (save_to_HiCRef (from_dict
      [(("chr1" : String), [10, 20, 30, 100]), (("chr2" : String), [5, 15, 25, 90])])) =
    from_dict
      [(("chr1" : String), [10, 20, 30, 100]), (("chr2" : String), [5, 15, 25, 90])] :=
  C3_roundtrip
    [(("chr1" : String), [10, 20, 30, 100]), (("chr2" : String), [5, 15, 25, 90])]
    (by decide) (by decide)

/-- C3 counterexample: with `{c1: [0, 10], c2: [5]}` (sorted ascending
endpoint lists), the original index holds `(c2, 0, 5)` with fragment id 2,
but the HiCRef round-trip rebuilds it with id 1: the interval sets differ. -/
theorem C3_counterexample :
    (⟨("c2"), 0, 5, 2⟩ : Interval) ∈
      from_dict [(("c1" : String), [0, 10]), (("c2" : String), [5])] ∧
    (⟨("c2"), 0, 5, 2⟩ : Interval) ∉
      from_HiCRef (save_to_HiCRef
        (from_dict [(("c1" : String), [0, 10]), (("c2" : String), [5])])) := by
  decide

/-- C5: on the index built from `{chr1: [10, 20, 30, 100]}`, the query
`(chr1, 15, 25)` yields exactly two overlaps of lengths 5 and 5, the query
`(chr1, 9, 10)` yields exactly one overlap of length 1 against fragment id 0,
and the query `(chr1, 100, 110)` yields no overlap. -/
theorem C5_concrete_queries :
    (iter_overlaps fmChr1 (("chr1"), 15, 25, ("q")) 0).map (·.overlap) = [5, 5] ∧
    (iter_overlaps fmChr1 (("chr1"), 9, 10, ("q")) 0).map
      (fun o => (o.frag_id, o.overlap)) = [(0, 1)] ∧
    iter_overlaps fmChr1 (("chr1"), 100, 110, ("q")) 0 = [] :=
  ⟨by decide, by decide, rfl⟩

/-- The mapping-type tag attached to a fragment assignment, mirroring the
`AlignedSegmentMappingType` enum exercised by `tests/test_map_to_frags.py`. -/
inductive AlignedSegmentMappingType where
  | none
  | simple
  | multi_frag
deriving DecidableEq, Repr

/-- Selection loop of the fragment assigner: keep the candidate with the
greater overlap length, preferring the lower fragment id on ties. -/
def bestOverlap : BedToolsOverlap → List BedToolsOverlap → BedToolsOverlap
  | b, [] => b
  | b, c :: t =>
    bestOverlap
      (if b.overlap < c.overlap ∨ (c.overlap = b.overlap ∧ c.frag_id < b.frag_id)
       then c else b) t

/-- Modelled from the spec: `AlignedSegment.assign_to_fragment` of
`pore_c.tools.map_to_frags`, a module absent from the repository snapshot
(only `tests/test_map_to_frags.py` exercises it).  Query the index with the
segment's reference interval; overlaps of length `<= min_overlap` are
discarded by `iter_overlaps`; with zero candidates return `(none, none)`,
with one return `(its id, simple)`, with several return the id of greatest
overlap length (ties broken by lowest fragment id) tagged `multi_frag`. -/
def assign_to_fragment (ivs : List Interval) (chrom : String) (s e : Nat)
    (min_overlap : Nat) : Option Nat × AlignedSegmentMappingType :=
  match iter_overlaps ivs (chrom, s, e, ("seg")) min_overlap with
  | [] => (Option.none, AlignedSegmentMappingType.none)
  | [o] => (some o.frag_id, AlignedSegmentMappingType.simple)
  | o :: rest =>
    (some (bestOverlap o rest).frag_id, AlignedSegmentMappingType.multi_frag)

/-- `r` is at least as good a candidate as `x`: strictly larger overlap, or
equal overlap and no larger fragment id. -/
def dominatesOverlap (r x : BedToolsOverlap) : Prop :=
  x.overlap < r.overlap ∨ (x.overlap = r.overlap ∧ r.frag_id ≤ x.frag_id)

theorem bestOverlap_mem :
    ∀ (t : List BedToolsOverlap) (b : BedToolsOverlap),
      bestOverlap b t = b ∨ bestOverlap b t ∈ t := by
  intro t
  induction t with
  | nil => intro b; exact Or.inl rfl
  | cons c t ih =>
    intro b
    rw [bestOverlap]
    split
    · rcases ih c with h | h
      · exact Or.inr (by rw [h]; exact List.mem_cons_self _ _)
      · exact Or.inr (List.mem_cons_of_mem _ h)
    · rcases ih b with h | h
      · exact Or.inl h
      · exact Or.inr (List.mem_cons_of_mem _ h)

theorem bestOverlap_optimal :
    ∀ (t : List BedToolsOverlap) (b : BedToolsOverlap),
      dominatesOverlap (bestOverlap b t) b ∧
      ∀ x ∈ t, dominatesOverlap (bestOverlap b t) x := by
  intro t
  induction t with
  | nil =>
    intro b
    exact ⟨Or.inr ⟨rfl, le_refl _⟩, fun x hx => absurd hx (List.not_mem_nil x)⟩
  | cons c t ih =>
    intro b
    rw [bestOverlap]
    split
    · rename_i hbc
      obtain ⟨hd, hall⟩ := ih c
      refine ⟨?_, fun x hx => ?_⟩
      · rcases hd with h | h <;> rcases hbc with h' | h' <;>
          [left; left; left; right] <;> omega
      · rcases List.mem_cons.mp hx with rfl | hx
        · exact hd
        · exact hall x hx
    · rename_i hbc
      push_neg at hbc
      obtain ⟨hd, hall⟩ := ih b
      refine ⟨hd, fun x hx => ?_⟩
      rcases List.mem_cons.mp hx with rfl | hx
      · rcases hd with h | h
        · left
          omega
        · rcases Nat.lt_or_ge x.overlap b.overlap with h' | h'
          · left
            omega
          · right
            have h1 : x.overlap = b.overlap := le_antisymm (hbc.1) h'
            exact ⟨by omega, by have := hbc.2 h1; omega⟩
      · exact hall x hx

/-- C6: with `min_overlap = mo`, every surviving candidate has overlap
length `> mo`; when at least two candidates survive the assigner returns a
candidate's fragment id tagged `multi_frag`, and that candidate has maximal
overlap length with the least fragment id among the maxima.  The assigner is
a total function, so identical inputs yield identical results. -/
theorem C6_assignment (ivs : List Interval) (chrom : String) (s e mo : Nat)
    (h2 : 2 ≤ (iter_overlaps ivs (chrom, s, e, ("seg")) mo).length) :
    (∀ o ∈ iter_overlaps ivs (chrom, s, e, ("seg")) mo, mo < o.overlap) ∧
    ∃ b ∈ iter_overlaps ivs (chrom, s, e, ("seg")) mo,
      assign_to_fragment ivs chrom s e mo =
        (some b.frag_id, AlignedSegmentMappingType.multi_frag) ∧
      ∀ o ∈ iter_overlaps ivs (chrom, s, e, ("seg")) mo,
        dominatesOverlap b o := by
  constructor
  · intro o ho
    have := (List.mem_filter.mp ho).2
    rw [decide_eq_true_iff] at this
    exact this
  · rcases hc : iter_overlaps ivs (chrom, s, e, ("seg")) mo with _ | ⟨o, _ | ⟨o', rest⟩⟩
    · rw [hc] at h2
      simp at h2
    · rw [hc] at h2
      simp at h2
    · refine ⟨bestOverlap o (o' :: rest), ?_, ?_, ?_⟩
      · rcases bestOverlap_mem (o' :: rest) o with h | h
        · rw [h]
          exact List.mem_cons_self _ _
        · exact List.mem_cons_of_mem _ h
      · rw [assign_to_fragment, hc]
      · intro x hx
        obtain ⟨hd, hall⟩ := bestOverlap_optimal (o' :: rest) o
        rcases List.mem_cons.mp hx with rfl | hx
        · exact hd
        · exact hall x hx

/-- C6 witness: on the `chr1` test index, the segment `[5, 12)` overlaps two
fragments (lengths 5 and 2) and the assigner picks fragment id 0 with tag
`multi_frag`. -/
theorem C6_assignment_witness :
    ((∀ o ∈ iter_overlaps fmChr1 (("chr1"), 5, 12, ("seg")) 0, 0 < o.overlap) ∧
    ∃ b ∈ iter_overlaps fmChr1 (("chr1"), 5, 12, ("seg")) 0,
      assign_to_fragment fmChr1 ("chr1") 5 12 0 =
        (some b.frag_id, AlignedSegmentMappingType.multi_frag) ∧
      ∀ o ∈ iter_overlaps fmChr1 (("chr1"), 5, 12, ("seg")) 0,
        dominatesOverlap b o) ∧
    assign_to_fragment fmChr1 ("chr1") 5 12 0 =
      (some 0, AlignedSegmentMappingType.multi_frag) ∧
    assign_to_fragment fmChr1 ("chr1") 5 10 0 =
      (some 0, AlignedSegmentMappingType.simple) ∧
    assign_to_fragment fmChr1 ("chr1") 5 20 0 =
      (some 1, AlignedSegmentMappingType.multi_frag) :=
  ⟨C6_assignment fmChr1 ("chr1") 5 12 0 (by decide), by decide, by decide,
    by decide⟩

/-- Modelled from the spec: co-inclusion mode of `flatten_multiway` in
`pore_c.tools.poreC_flatten`, a module absent from the repository snapshot
(only its CLI wrapper, `cli.py` lines 288-311, is present).  Emit every
combination of `size` distinct monomers drawn from the walk;
`List.sublistsLen` enumerates exactly the order-preserving combinations. -/
def flatten_co_inclusion {α : Type*} (walk : List α) (size : Nat) :
    List (List α) :=
  List.sublistsLen size walk

/-- Modelled from the spec: direct mode of `flatten_multiway` — only the
combinations consecutive in walk order, i.e. the sliding windows of width
`size`, of which the spec counts `max(0, n - size + 1)`. -/
def flatten_direct {α : Type*} (walk : List α) (size : Nat) : List (List α) :=
  if size ≤ walk.length then
    (List.range (walk.length - size + 1)).map fun i => (walk.drop i).take size
  else []

theorem flatten_direct_length {α : Type*} (walk : List α) (size : Nat) :
    ((flatten_direct walk size).length : Int) =
      max 0 ((walk.length : Int) - size + 1) := by
  rw [flatten_direct]
  split
  · rename_i h
    rw [List.length_map, List.length_range]
    omega
  · rename_i h
    rw [List.length_nil]
    omega

theorem flatten_direct_window_head {α : Type*} (walk : List α) (size i : Nat)
    (hk : 1 ≤ size) : ((walk.drop i).take size).head? = walk[i]? := by
  rw [List.head?_take, if_neg (by omega), List.head?_drop]

/-- C7 (amended): for a walk of length `n`, co-inclusion mode emits exactly
`C(n, k)` records and direct mode exactly `max(0, n - k + 1)`; with
distinguishable monomers no two co-inclusion records coincide, and no two
direct records coincide provided `k >= 1` (at `k = 0` direct mode emits
`n + 1` indistinguishable empty records). -/
theorem C7_flatten_counts {α : Type*} (walk : List α) (k : Nat) :
    (flatten_co_inclusion walk k).length = walk.length.choose k ∧
    ((flatten_direct walk k).length : Int) =
      max 0 ((walk.length : Int) - k + 1) ∧
    (walk.Nodup → (flatten_co_inclusion walk k).Nodup) ∧
    (walk.Nodup → 1 ≤ k → (flatten_direct walk k).Nodup) := by
  refine ⟨List.length_sublistsLen k walk, flatten_direct_length walk k,
    fun hnd => List.nodup_sublistsLen k hnd, fun hnd hk => ?_⟩
  rw [flatten_direct]
  split
  · rename_i hkn
    refine List.Nodup.map_on ?_ (List.nodup_range _)
    intro i hi j hj hij
    rw [List.mem_range] at hi hj
    have hheads : walk[i]? = walk[j]? := by
      rw [← flatten_direct_window_head walk k i hk,
        ← flatten_direct_window_head walk k j hk, hij]
    exact List.getElem?_inj (by omega) hnd hheads
  · exact List.nodup_nil

/-- C7 witness: the count and distinctness laws evaluated on the walk
`[10, 20, 30]` with `k = 2`. -/
theorem C7_flatten_counts_witness :
    (flatten_co_inclusion ([10, 20, 30] : List Nat) 2).length =
      Nat.choose 3 2 ∧
    ((flatten_direct ([10, 20, 30] : List Nat) 2).length : Int) =
      max 0 ((3 : Int) - 2 + 1) ∧
    (flatten_co_inclusion ([10, 20, 30] : List Nat) 2).Nodup ∧
    (flatten_direct ([10, 20, 30] : List Nat) 2).Nodup :=
  ⟨(C7_flatten_counts ([10, 20, 30] : List Nat) 2).1,
    (C7_flatten_counts ([10, 20, 30] : List Nat) 2).2.1,
    (C7_flatten_counts ([10, 20, 30] : List Nat) 2).2.2.1 (by decide),
    (C7_flatten_counts ([10, 20, 30] : List Nat) 2).2.2.2 (by decide)
      (by decide)⟩

/-- C7 counterexample: at `size = 0` the claim's own direct-mode count
`max(0, n - 0 + 1) = n + 1` forces duplicate records — on the
distinguishable walk `[0, 1]` direct mode emits three identical empty
combinations, so "no two emitted combinations are identical" fails for
every size `k`. -/
theorem C7_counterexample :
    flatten_direct ([0, 1] : List Nat) 0 = [[], [], []] ∧
    ¬ (flatten_direct ([0, 1] : List Nat) 0).Nodup ∧
    ([0, 1] : List Nat).Nodup := by decide

/-- One normalized bin pair of `bin_hic_data` (`map_to_bins.py` lines
126-133): map both contact partners' fragments to bins and order the pair so
the smaller bin comes first. -/
def hicBinPair (fragToBin : Nat → Nat) (c : Nat × Nat) : Nat × Nat :=
  let pt1 := fragToBin c.1
  let pt2 := fragToBin c.2
  if pt1 > pt2 then (pt2, pt1) else (pt1, pt2)

/-- One `Counter` increment on an insertion-ordered association list: bump
the count of `key`, appending it with count 1 on first sight (a Python
`Counter` iterates in first-insertion order). -/
def incCount (acc : List ((Nat × Nat) × Nat)) (key : Nat × Nat) :
    List ((Nat × Nat) × Nat) :=
  if acc.any fun e => decide (e.1 = key) then
    acc.map fun e => if e.1 = key then (e.1, e.2 + 1) else e
  else acc ++ [(key, 1)]

/-- `bin_hic_data` (`map_to_bins.py` lines 111-140) restricted to its
counting core: `contacts` are the `(frag1, frag2)` pairs parsed from columns
5 and 9 of the hic-text lines, `fragToBin` the fragment-to-bin mapping; the
result is the `Counter` content that the final loop writes out. -/
def bin_hic_data (fragToBin : Nat → Nat) (contacts : List (Nat × Nat)) :
    List ((Nat × Nat) × Nat) :=
  (contacts.map (hicBinPair fragToBin)).foldl incCount []

theorem hicBinPair_le (fragToBin : Nat → Nat) (c : Nat × Nat) :
    (hicBinPair fragToBin c).1 ≤ (hicBinPair fragToBin c).2 := by
  rw [hicBinPair]
  split <;> simp <;> omega

theorem hicBinPair_swap (fragToBin : Nat → Nat) (a b : Nat) :
    hicBinPair fragToBin (b, a) = hicBinPair fragToBin (a, b) := by
  rw [hicBinPair, hicBinPair]
  simp only
  split <;> split <;> rw [Prod.mk.injEq] <;> omega

theorem foldl_incCount_keys (P : Nat × Nat → Prop) (l : List (Nat × Nat)) :
    ∀ (acc : List ((Nat × Nat) × Nat)),
      (∀ e ∈ acc, P e.1) → (∀ k ∈ l, P k) →
      ∀ e ∈ l.foldl incCount acc, P e.1 := by
  induction l with
  | nil => exact fun acc ha _ => ha
  | cons k t ih =>
    intro acc ha hl
    rw [List.foldl_cons]
    refine ih (incCount acc k) ?_ fun x hx => hl x (List.mem_cons_of_mem _ hx)
    intro e he
    rw [incCount] at he
    split at he
    · obtain ⟨x, hxm, hxe⟩ := List.mem_map.mp he
      by_cases hx1 : x.1 = k
      · rw [if_pos hx1] at hxe
        rw [← hxe]
        exact ha x hxm
      · rw [if_neg hx1] at hxe
        rw [← hxe]
        exact ha x hxm
    · rcases List.mem_append.mp he with h | h
      · exact ha e h
      · rw [List.mem_singleton.mp h]
        exact hl k (List.mem_cons_self _ _)

/-- C8: every counter entry produced by `bin_hic_data` has its bin pair in
nondecreasing order (`b1 <= b2`), and the counter — hence every written
sparse-matrix entry — is unchanged when any subset of the input contacts has
its two partners swapped. -/
theorem C8_bin_pair_order (fragToBin : Nat → Nat)
    (contacts contacts' : List (Nat × Nat))
    (hsw : List.Forall₂ (fun c c' => c' = c ∨ c' = (c.2, c.1))
      contacts contacts') :
    (∀ e ∈ bin_hic_data fragToBin contacts, e.1.1 ≤ e.1.2) ∧
    bin_hic_data fragToBin contacts' = bin_hic_data fragToBin contacts := by
  constructor
  · intro e he
    refine foldl_incCount_keys (fun k => k.1 ≤ k.2) _ [] (by simp) ?_ e he
    intro k hk
    obtain ⟨c, _, rfl⟩ := List.mem_map.mp hk
    exact hicBinPair_le fragToBin c
  · rw [bin_hic_data, bin_hic_data]
    have hmap : contacts'.map (hicBinPair fragToBin) =
        contacts.map (hicBinPair fragToBin) := by
      induction hsw with
      | nil => rfl
      | cons hc htail ihm =>
        rw [List.map_cons, List.map_cons, ihm]
        rcases hc with rfl | he
        · rfl
        · rw [he, hicBinPair_swap]
    rw [hmap]

/-- C8 witness: concretely, with the identity fragment-to-bin map, the
contact list `[(2, 1), (3, 4)]` produces the same ordered counter as
`[(1, 2), (3, 4)]`, and all keys are ordered. -/
theorem C8_bin_pair_order_witness :
    (∀ e ∈ bin_hic_data (fun n => n) [(1, 2), (3, 4)], e.1.1 ≤ e.1.2) ∧
    bin_hic_data (fun n => n) [(2, 1), (3, 4)] =
      bin_hic_data (fun n => n) [(1, 2), (3, 4)] :=
  C8_bin_pair_order (fun n => n) [(1, 2), (3, 4)] [(2, 1), (3, 4)]
    (List.Forall₂.cons (Or.inr rfl)
      (List.Forall₂.cons (Or.inl rfl) List.Forall₂.nil))

/-- Decimal-digit accumulator used to model Python's `int()` on the file
tokens. -/
def digitsToNat : List Char → Nat → Option Nat
  | [], acc => some acc
  | c :: cs, acc =>
    if c.isDigit then digitsToNat cs (acc * 10 + (c.toNat - 48)) else none

/-- Python `int(token)` restricted to nonnegative decimal tokens; `none`
models the `ValueError` raised on a non-numeric token. -/
def parseNat (s : String) : Option Nat :=
  match s.data with
  | [] => none
  | l => digitsToNat l 0

/-- A Python value as stored in `frag_to_bin` or tested by `in`: either a
raw string token or a parsed integer.  Python's `==` never equates a `str`
with an `int`, which structural equality on this type reproduces. -/
inductive PyVal where
  | str : String → PyVal
  | int : Nat → PyVal
deriving DecidableEq, Repr

/-- The two `ValueError` sites of the `frag_to_bin` loading loop. -/
inductive BinLoadError where
  | duplicateFragment
  | parseFailure
deriving DecidableEq, Repr

/-- Python dict assignment `d[k] = v` on an insertion-ordered association
list: overwrite in place when the key is present, append otherwise. -/
def assocSet : List (PyVal × Nat) → PyVal → Nat → List (PyVal × Nat)
  | [], k, v => [(k, v)]
  | e :: t, k, v => if e.1 = k then (k, v) :: t else e :: assocSet t k v

/-- Python dict lookup `d[k]` on an insertion-ordered association list. -/
def assocLookup : List (PyVal × Nat) → PyVal → Option Nat
  | [], _ => none
  | e :: t, k => if e.1 = k then some e.2 else assocLookup t k

/-- One iteration of the `frag_to_bin` loading loop of `bin_hic_data`
(`map_to_bins.py` lines 114-123): the line's RAW STRING first token is
tested for membership in a dict keyed by PARSED integers
(`if l[0] in frag_to_bin`), raising the duplicate-fragment `ValueError` on a
hit; otherwise `frag_to_bin[int(l[0])] = int(l[1])`. -/
def loadStep (acc : List (PyVal × Nat)) (t : String × String) :
    Except BinLoadError (List (PyVal × Nat)) :=
  if acc.any fun e => decide (e.1 = PyVal.str t.1) then
    Except.error BinLoadError.duplicateFragment
  else
    match parseNat t.1, parseNat t.2 with
    | some k, some v => Except.ok (assocSet acc (PyVal.int k) v)
    | _, _ => Except.error BinLoadError.parseFailure

/-- The `frag_to_bin` loading loop of `bin_hic_data` over all lines. -/
def loadFragToBin (lines : List (String × String)) :
    Except BinLoadError (List (PyVal × Nat)) :=
  lines.foldlM loadStep []

/-- The loading loop with both error paths removed (they are unreachable on
integer-parsable input). -/
def loadOk : List (String × String) → List (PyVal × Nat) → List (PyVal × Nat)
  | [], acc => acc
  | t :: rest, acc =>
    loadOk rest
      (assocSet acc (PyVal.int ((parseNat t.1).getD 0)) ((parseNat t.2).getD 0))

/-- The bin named by the LAST input line whose first token parses to `k`. -/
def lastBin (lines : List (String × String)) (k : Nat) : Option Nat :=
  ((lines.filter fun t => decide (parseNat t.1 = some k)).getLast?).bind
    fun t => parseNat t.2

theorem assocSet_keys_int (k : Nat) (v : Nat) :
    ∀ (acc : List (PyVal × Nat)), (∀ e ∈ acc, ∃ n, e.1 = PyVal.int n) →
      ∀ e ∈ assocSet acc (PyVal.int k) v, ∃ n, e.1 = PyVal.int n := by
  intro acc
  induction acc with
  | nil =>
    intro _ e he
    simp only [assocSet, List.mem_singleton] at he
    rw [he]
    exact ⟨k, rfl⟩
  | cons x t ih =>
    intro hk e he
    simp only [assocSet] at he
    split at he
    · rcases List.mem_cons.mp he with rfl | h
      · exact ⟨k, rfl⟩
      · exact hk e (List.mem_cons_of_mem _ h)
    · rcases List.mem_cons.mp he with rfl | h
      · exact hk e (List.mem_cons_self _ _)
      · exact ih (fun y hy => hk y (List.mem_cons_of_mem _ hy)) e h

theorem any_str_key_false (s : String) (acc : List (PyVal × Nat))
    (hk : ∀ e ∈ acc, ∃ n, e.1 = PyVal.int n) :
    (acc.any fun e => decide (e.1 = PyVal.str s)) = false := by
  rw [List.any_eq_false]
  intro e he
  obtain ⟨n, hn⟩ := hk e he
  simp [hn]

theorem loadStep_ok (acc : List (PyVal × Nat)) (t : String × String)
    (hk : ∀ e ∈ acc, ∃ n, e.1 = PyVal.int n) (k v : Nat)
    (hk1 : parseNat t.1 = some k) (hv1 : parseNat t.2 = some v) :
    loadStep acc t = Except.ok (assocSet acc (PyVal.int k) v) := by
  rw [loadStep,
    if_neg (by rw [any_str_key_false t.1 acc hk]; exact Bool.false_ne_true),
    hk1, hv1]

theorem loadFragToBin_loop_ok (lines : List (String × String)) :
    ∀ (acc : List (PyVal × Nat)), (∀ e ∈ acc, ∃ n, e.1 = PyVal.int n) →
      (∀ t ∈ lines, (parseNat t.1).isSome ∧ (parseNat t.2).isSome) →
      lines.foldlM loadStep acc = Except.ok (loadOk lines acc) := by
  induction lines with
  | nil => intro acc _ _; rfl
  | cons t rest ih =>
    intro acc hk hp
    obtain ⟨h1, h2⟩ := hp t (List.mem_cons_self _ _)
    obtain ⟨k, hk1⟩ := Option.isSome_iff_exists.mp h1
    obtain ⟨v, hv1⟩ := Option.isSome_iff_exists.mp h2
    rw [List.foldlM_cons, loadStep_ok acc t hk k v hk1 hv1]
    show List.foldlM loadStep (assocSet acc (PyVal.int k) v) rest = _
    rw [ih (assocSet acc (PyVal.int k) v) (assocSet_keys_int k v acc hk)
      (fun x hx => hp x (List.mem_cons_of_mem _ hx))]
    rw [loadOk, hk1, hv1]
    rfl

theorem assocLookup_assocSet (kq ks : PyVal) (v : Nat) :
    ∀ (acc : List (PyVal × Nat)),
      assocLookup (assocSet acc ks v) kq =
        if kq = ks then some v else assocLookup acc kq := by
  intro acc
  induction acc with
  | nil =>
    simp only [assocSet, assocLookup]
    by_cases h : kq = ks
    · rw [if_pos h.symm, if_pos h]
    · rw [if_neg (fun he => h he.symm), if_neg h]
  | cons e t ih =>
    simp only [assocSet]
    by_cases he : e.1 = ks
    · simp only [if_pos he, assocLookup]
      by_cases h : kq = ks
      · rw [if_pos h.symm, if_pos h]
      · rw [if_neg (fun hx => h hx.symm), if_neg h,
          if_neg (fun hx : e.1 = kq => h (hx.symm.trans he))]
    · simp only [if_neg he, assocLookup]
      by_cases hek : e.1 = kq
      · rw [if_pos hek, if_pos hek]
        have hnq : ¬ kq = ks := fun h => he (hek.trans h)
        rw [if_neg hnq]
      · rw [if_neg hek, if_neg hek, ih]

theorem getLast?_cons_or {α : Type*} (a : α) (l : List α) :
    (a :: l).getLast? = l.getLast?.or (some a) := by
  cases l <;> simp [List.getLast?]

theorem loadOk_lookup (lines : List (String × String)) :
    ∀ (acc : List (PyVal × Nat)) (k : Nat),
      (∀ t ∈ lines, (parseNat t.1).isSome ∧ (parseNat t.2).isSome) →
      assocLookup (loadOk lines acc) (PyVal.int k) =
        (lastBin lines k).or (assocLookup acc (PyVal.int k)) := by
  induction lines with
  | nil =>
    intro acc k _
    rw [loadOk, lastBin]
    rfl
  | cons t rest ih =>
    intro acc k hp
    obtain ⟨h1, h2⟩ := hp t (List.mem_cons_self _ _)
    obtain ⟨k₀, hk0⟩ := Option.isSome_iff_exists.mp h1
    obtain ⟨v, hv⟩ := Option.isSome_iff_exists.mp h2
    rw [loadOk, hk0, hv]
    simp only [Option.getD_some]
    rw [ih _ k (fun x hx => hp x (List.mem_cons_of_mem _ hx))]
    rw [assocLookup_assocSet (PyVal.int k) (PyVal.int k₀) v acc]
    by_cases hmatch : k₀ = k
    · have hk0' : parseNat t.1 = some k := by rw [hk0, hmatch]
      rw [if_pos (by rw [hmatch])]
      have hfil : (t :: rest).filter
          (fun x => decide (parseNat x.1 = some k)) =
          t :: rest.filter (fun x => decide (parseNat x.1 = some k)) := by
        rw [List.filter_cons, if_pos (by rw [hk0']; simp)]
      rcases hfr : rest.filter (fun x => decide (parseNat x.1 = some k)) with
        _ | ⟨f, fr⟩
      · have hrest : lastBin rest k = none := by
          rw [lastBin, hfr]
          rfl
        have hcons : lastBin (t :: rest) k = some v := by
          rw [lastBin, hfil, hfr]
          simp [hv]
        rw [hrest, hcons]
        rfl
      · have hne : rest.filter (fun x => decide (parseNat x.1 = some k)) ≠
            [] := by rw [hfr]; exact List.cons_ne_nil _ _
        have hlast : (rest.filter
            (fun x => decide (parseNat x.1 = some k))).getLast? =
            some ((rest.filter
              (fun x => decide (parseNat x.1 = some k))).getLast hne) :=
          List.getLast?_eq_getLast_of_ne_nil hne
        set x := (rest.filter
          (fun x => decide (parseNat x.1 = some k))).getLast hne with hxdef
        have hxmem : x ∈ rest :=
          (List.mem_filter.mp (List.getLast_mem hne)).1
        obtain ⟨w, hw⟩ := Option.isSome_iff_exists.mp
          (hp x (List.mem_cons_of_mem _ hxmem)).2
        have hrest : lastBin rest k = some w := by
          rw [lastBin, hlast]
          simpa using hw
        have hcons : lastBin (t :: rest) k = some w := by
          rw [lastBin, hfil, getLast?_cons_or, hlast]
          simpa using hw
        rw [hrest, hcons]
        rfl
    · rw [if_neg (fun he => hmatch (PyVal.int.inj he).symm)]
      have hfil : (t :: rest).filter
          (fun x => decide (parseNat x.1 = some k)) =
          rest.filter (fun x => decide (parseNat x.1 = some k)) := by
        rw [List.filter_cons, if_neg]
        rw [hk0]
        simp
        exact hmatch
      rw [show lastBin (t :: rest) k =
        lastBin rest k from by rw [lastBin, lastBin, hfil]]

/-- C9: the duplicate-fragment `ValueError` of `bin_hic_data` is unreachable:
the membership test compares the raw string token against a dict keyed by
parsed integers, so any input whose lines parse as integer pairs — including
inputs repeating a fragment id — loads without error, and the LAST line
mentioning a fragment id determines its bin. -/
theorem C9_duplicate_check_dead (lines : List (String × String))
    (hp : ∀ t ∈ lines, (parseNat t.1).isSome ∧ (parseNat t.2).isSome) :
    loadFragToBin lines = Except.ok (loadOk lines []) ∧
    ∀ k : Nat,
      assocLookup (loadOk lines []) (PyVal.int k) = lastBin lines k := by
  refine ⟨loadFragToBin_loop_ok lines [] (by simp) hp, fun k => ?_⟩
  rw [loadOk_lookup lines [] k hp]
  rw [show assocLookup [] (PyVal.int k) = none from rfl]
  exact Option.or_none

/-- C9 witness: the input listing fragment id 1 twice (bins 5 then 7) loads
without any error and maps fragment 1 to bin 7, the last line's bin. -/
theorem C9_duplicate_check_dead_witness :
    loadFragToBin [(("1" : String), ("5" : String)), (("1"), ("7"))] =
      Except.ok (loadOk [(("1" : String), ("5" : String)), (("1"), ("7"))] []) ∧
    assocLookup (loadOk [(("1" : String), ("5" : String)), (("1"), ("7"))] [])
        (PyVal.int 1) =
      lastBin [(("1" : String), ("5" : String)), (("1"), ("7"))] 1 ∧
    lastBin [(("1" : String), ("5" : String)), (("1"), ("7"))] 1 = some 7 :=
  ⟨(C9_duplicate_check_dead _ (by decide)).1,
    (C9_duplicate_check_dead _ (by decide)).2 1, by decide⟩

/-- One iteration of the deduplicating write loop of
`fragment_bin_assignments` (`map_to_bins.py` lines 100-108): the state is
`(lines written, frags_seen)`; a record is written, and its fragment id
recorded, only when the id has not been seen. -/
def fbaStep (acc : List (String × String) × List String)
    (e : String × String) : List (String × String) × List String :=
  if e.1 ∈ acc.2 then acc else (acc.1 ++ [e], acc.2 ++ [e.1])

/-- The write loop of `fragment_bin_assignments` over the intersection
records, each reduced to its `(fragment-id token, bin-id token)` columns
`(l[3], l[7])`; returns the lines written. -/
def fragment_bin_assignments (entries : List (String × String)) :
    List (String × String) :=
  (entries.foldl fbaStep (([] : List (String × String)),
    ([] : List String))).1

theorem fbaStep_seen (acc : List (String × String) × List String)
    (e : String × String) (hseen : acc.2 = acc.1.map (·.1)) :
    (fbaStep acc e).2 = (fbaStep acc e).1.map (·.1) := by
  rw [fbaStep]
  split
  · exact hseen
  · simp [hseen]

theorem fba_foldl_seen (entries : List (String × String)) :
    ∀ acc, acc.2 = acc.1.map (·.1) →
      (entries.foldl fbaStep acc).2 =
        (entries.foldl fbaStep acc).1.map (·.1) := by
  induction entries with
  | nil => exact fun acc h => h
  | cons e rest ih =>
    intro acc h
    rw [List.foldl_cons]
    exact ih (fbaStep acc e) (fbaStep_seen acc e h)

theorem fba_foldl_extends (entries : List (String × String)) :
    ∀ acc, ∃ ext, (entries.foldl fbaStep acc).1 = acc.1 ++ ext := by
  induction entries with
  | nil => exact fun acc => ⟨[], by simp⟩
  | cons e rest ih =>
    intro acc
    rw [List.foldl_cons, fbaStep]
    split
    · exact ih acc
    · obtain ⟨ext, hext⟩ := ih (acc.1 ++ [e], acc.2 ++ [e.1])
      exact ⟨[e] ++ ext, by rw [hext]; simp⟩

theorem fba_foldl_seen_nodup (entries : List (String × String)) :
    ∀ acc, acc.2.Nodup → (entries.foldl fbaStep acc).2.Nodup := by
  induction entries with
  | nil => exact fun acc h => h
  | cons e rest ih =>
    intro acc h
    rw [List.foldl_cons, fbaStep]
    split
    · exact ih acc h
    · rename_i hm
      refine ih _ ?_
      rw [List.nodup_append]
      exact ⟨h, List.nodup_singleton _, by
        intro a ha hb
        rw [List.mem_singleton.mp hb] at ha
        exact hm ha⟩

theorem fba_foldl_first (entries : List (String × String)) :
    ∀ acc, acc.2 = acc.1.map (·.1) →
      ∀ e' ∈ (entries.foldl fbaStep acc).1,
        e' ∈ acc.1 ∨
          (entries.find? (fun x => decide (x.1 = e'.1)) = some e' ∧
            e'.1 ∉ acc.2) := by
  induction entries with
  | nil => exact fun acc _ e' he => Or.inl he
  | cons e rest ih =>
    intro acc hseen e' he'
    rw [List.foldl_cons] at he'
    by_cases hm : e.1 ∈ acc.2
    · have hstep : fbaStep acc e = acc := by rw [fbaStep, if_pos hm]
      rw [hstep] at he'
      rcases ih acc hseen e' he' with h | ⟨hf, hns⟩
      · exact Or.inl h
      · refine Or.inr ⟨?_, hns⟩
        rw [List.find?_cons_of_neg]
        · exact hf
        · simp only [decide_eq_true_iff]
          intro hx
          exact hns (hx ▸ hm)
    · have hstep : fbaStep acc e = (acc.1 ++ [e], acc.2 ++ [e.1]) := by
        rw [fbaStep, if_neg hm]
      rw [hstep] at he'
      have hseen' : (acc.2 ++ [e.1]) = (acc.1 ++ [e]).map (·.1) := by
        simp [hseen]
      rcases ih (acc.1 ++ [e], acc.2 ++ [e.1]) hseen' e' he' with h | ⟨hf, hns⟩
      · rcases List.mem_append.mp h with h | h
        · exact Or.inl h
        · rw [List.mem_singleton.mp h]
          refine Or.inr ⟨?_, hm⟩
          rw [List.find?_cons_of_pos]
          simp
      · rw [List.mem_append, List.mem_singleton] at hns
        push_neg at hns
        refine Or.inr ⟨?_, hns.1⟩
        rw [List.find?_cons_of_neg]
        · exact hf
        · simp only [decide_eq_true_iff]
          intro hx
          exact hns.2 hx.symm

theorem fba_foldl_covers (entries : List (String × String)) :
    ∀ acc, acc.2 = acc.1.map (·.1) →
      ∀ x ∈ entries, ∃ e ∈ (entries.foldl fbaStep acc).1, e.1 = x.1 := by
  induction entries with
  | nil => exact fun acc _ x hx => absurd hx (List.not_mem_nil x)
  | cons e rest ih =>
    intro acc hseen x hx
    rw [List.foldl_cons]
    rcases List.mem_cons.mp hx with rfl | hx
    · by_cases hm : x.1 ∈ acc.2
      · have hstep : fbaStep acc x = acc := by rw [fbaStep, if_pos hm]
        rw [hstep]
        rw [hseen] at hm
        obtain ⟨e'', he'', hkey⟩ := List.mem_map.mp hm
        obtain ⟨ext, hext⟩ := fba_foldl_extends rest acc
        exact ⟨e'', by rw [hext]; exact List.mem_append_left _ he'', hkey⟩
      · have hstep : fbaStep acc x = (acc.1 ++ [x], acc.2 ++ [x.1]) := by
          rw [fbaStep, if_neg hm]
        rw [hstep]
        obtain ⟨ext, hext⟩ := fba_foldl_extends rest (acc.1 ++ [x], acc.2 ++ [x.1])
        refine ⟨x, ?_, rfl⟩
        rw [hext]
        exact List.mem_append_left _ (List.mem_append_right _ (List.mem_singleton_self _))
    · exact ih (fbaStep acc e) (fbaStep_seen acc e hseen) x hx

/-- C10: `fragment_bin_assignments` writes at most one line per fragment id
(the written ids are pairwise distinct), every written line is the FIRST
intersection record carrying its fragment id, and every fragment id
appearing in the records gets a line — so the output is a function from
fragment id to bin id. -/
theorem C10_first_occurrence_wins (entries : List (String × String)) :
    ((fragment_bin_assignments entries).map (·.1)).Nodup ∧
    (∀ e ∈ fragment_bin_assignments entries,
      entries.find? (fun x => decide (x.1 = e.1)) = some e) ∧
    (∀ x ∈ entries, ∃ e ∈ fragment_bin_assignments entries, e.1 = x.1) := by
  refine ⟨?_, fun e he => ?_, fun x hx => ?_⟩
  · rw [fragment_bin_assignments]
    rw [← fba_foldl_seen entries (([], [])) rfl]
    exact fba_foldl_seen_nodup entries (([], [])) List.nodup_nil
  · rcases fba_foldl_first entries (([], [])) rfl e he with h | ⟨hf, _⟩
    · exact absurd h (List.not_mem_nil e)
    · exact hf
  · exact fba_foldl_covers entries (([], [])) rfl x hx

/-- C10 witness: with records `[(f1, b1), (f1, b2), (f2, b3)]` the loop
writes `[(f1, b1), (f2, b3)]` — one line per fragment id, first record
winning. -/
theorem C10_first_occurrence_wins_witness :
    ((fragment_bin_assignments
        [(("f1" : String), ("b1" : String)), (("f1"), ("b2")),
          (("f2"), ("b3"))]).map (·.1)).Nodup ∧
    (∀ e ∈ fragment_bin_assignments
        [(("f1" : String), ("b1" : String)), (("f1"), ("b2")),
          (("f2"), ("b3"))],
      [(("f1" : String), ("b1" : String)), (("f1"), ("b2")),
          (("f2"), ("b3"))].find? (fun x => decide (x.1 = e.1)) = some e) ∧
    (∀ x ∈ [(("f1" : String), ("b1" : String)), (("f1"), ("b2")),
          (("f2"), ("b3"))],
      ∃ e ∈ fragment_bin_assignments
        [(("f1" : String), ("b1" : String)), (("f1"), ("b2")),
          (("f2"), ("b3"))], e.1 = x.1) :=
  C10_first_occurrence_wins
    [(("f1" : String), ("b1" : String)), (("f1"), ("b2")), (("f2"), ("b3"))]

end PoreC
